import Mathlib

/-!
Verification development for the workflow engine of the `deus` CLI
(`src/workflows/manager.js`, `src/core/database.js`, and the debug-shell
skill's duration parser).  The JavaScript source is embedded shallowly:
pure functions become Lean functions on `String`/`List Char`, the
database is explicit state (a list of stored workflow rows), and the
process-execution collaborator is an oracle `runner : String → Bool`
(`true` = the dispatched command's promise fulfils, `false` = it
rejects).  Dispatches are recorded as a trace of `Outcome`s so that
claims about "which commands ran" are statable.
-/

namespace Deus

/-- One left-to-right, non-overlapping replace-all pass over a character
list, mirroring JavaScript `String.prototype.replace` with a global
regex whose pattern is the literal `pat` (the source builds the regex by
splicing the variable name between escaped anchors, so for the
identifier keys used by workflows the pattern is literal text).  The
`fuel` argument makes the recursion structural; every call site passes
the length of the subject string, which is always sufficient because
each step consumes at least one character.  Replacement text is spliced
verbatim and never rescanned, exactly as in JavaScript, where matching
runs over the original string only. -/
def replaceAllFuel (pat rep : List Char) : Nat → List Char → List Char
  | _, [] => []
  | 0, s => s
  | Nat.succ fuel, c :: rest =>
    if pat.isPrefixOf (c :: rest) then
      rep ++ replaceAllFuel pat rep fuel (List.drop (pat.length - 1) rest)
    else
      c :: replaceAllFuel pat rep fuel rest

/-- String wrapper for `replaceAllFuel`, with fuel equal to the length
of the subject string. -/
def strReplaceAll (s pat rep : String) : String :=
  ⟨replaceAllFuel pat.data rep.data s.data.length s.data⟩

/-- The brace placeholder pattern `"${" ++ k ++ "}"` built for a key, as
in `new RegExp("\\$\\{" + key + "\\}", "g")` from the source. -/
def bracePat (k : String) : String := "$\x7b" ++ k ++ "\x7d"

/-- The bare placeholder pattern `"$" ++ k`, as in
`new RegExp("\\$" + key, "g")` from the source.  Note there is no word
boundary after the key in the source regex. -/
def barePat (k : String) : String := "$" ++ k

/-- Substitution of a single variable, mirroring the two consecutive
`result.replace` calls in `WorkflowManager.replaceVariables`: first the
brace form, then the bare form. -/
def substOneKey (s k v : String) : String :=
  strReplaceAll (strReplaceAll s (bracePat k) v) (barePat k) v

/-- `WorkflowManager.replaceVariables`: fold the per-key substitution
over the variable entries in insertion order (`Object.entries`). -/
def replaceVariables (command : String) (vars : List (String × String)) : String :=
  vars.foldl (fun result kv => substOneKey result kv.1 kv.2) command

example : replaceVariables "echo build:$\x7benv\x7d" [("env", "staging")] = "echo build:staging" := by decide
example : replaceVariables "echo $env" [("env", "staging")] = "echo staging" := by decide
example : replaceVariables "echo $\x7bmissing\x7d" [("env", "staging")] = "echo $\x7bmissing\x7d" := by decide
example : replaceVariables "$envx" [("env", "prod")] = "prodx" := by decide
example : replaceVariables "$\x7ba\x7d" [("a", "$\x7bb\x7d"), ("b", "X")] = "X" := by decide

/-- The recorded result of one dispatched command: its position in the
workflow's command list, the command string after substitution, and
whether the dispatch fulfilled (`ok = true`) or rejected. -/
structure Outcome where
  index : Nat
  resolvedCommand : String
  ok : Bool
deriving Repr, DecidableEq

/-- The value returned by `WorkflowManager.execute` — the source returns
a plain `{ success, message }` object; `outcomes` and `haltedEarly` are
trace instrumentation recording, respectively, exactly the dispatches
performed by the run (in dispatch order) and whether the sequential loop
returned early from inside its `catch` block. -/
structure ExecResult where
  success : Bool
  message : String
  outcomes : List Outcome
  haltedEarly : Bool
deriving Repr, DecidableEq

/-- A row of the `workflows` table, joined with its `workflow_commands`
rows (in `order_index` order) and its parsed `variables` JSON object
(an association list in insertion order). -/
structure StoredWorkflow where
  name : String
  description : String
  parallel : Bool
  continue_on_error : Bool
  vars : List (String × String)
  commands : List String
  execution_count : Nat
  last_executed : Option Nat
deriving Repr, DecidableEq

/-- The spread merge `{ ...workflow.variables, ...vars }`: keys of the
stored map keep their insertion order but take the override's value when
present; override keys not already present are appended in their own
order. -/
def mergeVars (base overrides : List (String × String)) : List (String × String) :=
  base.map (fun kv => (kv.1, ((overrides.lookup kv.1).getD kv.2)))
    ++ overrides.filter (fun kv => (base.lookup kv.1).isNone)

/-- Reference trace: the outcome each command of `cs` receives when it
is resolved against `vs` and dispatched to `runner`, indexed from `n`. -/
def traceOutcomes (runner : String → Bool) (vs : List (String × String)) :
    Nat → List String → List Outcome
  | _, [] => []
  | n, c :: rest =>
    let rc := replaceVariables c vs
    ⟨n, rc, runner rc⟩ :: traceOutcomes runner vs (n + 1) rest

/-- The sequential loop of `WorkflowManager.execute` (the `else` branch,
lines 120–162 of `manager.js`): iterate the commands from index `i`,
dispatching each resolved command; on rejection either return early
(`continue_on_error` false) or set the `failed` flag and continue.  The
early return propagates outward unchanged except that each enclosing
iteration prepends its own dispatch to the trace. -/
def execSeqAux (runner : String → Bool) (vs : List (String × String)) (coe : Bool) :
    List String → Nat → Bool → ExecResult
  | [], _, failed =>
    if failed && coe then
      { success := true, message := "Workflow completed with errors",
        outcomes := [], haltedEarly := false }
    else
      { success := true, message := "Workflow completed successfully",
        outcomes := [], haltedEarly := false }
  | cmd :: rest, i, failed =>
    let command := replaceVariables cmd vs
    if runner command then
      let r := execSeqAux runner vs coe rest (i + 1) failed
      { r with outcomes := ⟨i, command, true⟩ :: r.outcomes }
    else
      if !coe then
        { success := false,
          message := "Workflow failed at command " ++ toString (i + 1),
          outcomes := [⟨i, command, false⟩], haltedEarly := true }
      else
        let r := execSeqAux runner vs coe rest (i + 1) true
        { r with outcomes := ⟨i, command, false⟩ :: r.outcomes }

/-- The parallel branch of `WorkflowManager.execute` (lines 82–119):
every command is resolved and dispatched before any result is
inspected (`commands.map` then `Promise.allSettled`), the rejected
results are counted, and the return value depends only on that count.
The settled results are index-aligned with the command list. -/
def execPar (runner : String → Bool) (vs : List (String × String))
    (cmds : List String) : ExecResult :=
  let settled := cmds.map (fun cmd =>
    let command := replaceVariables cmd vs
    (command, runner command))
  let failedCount := (settled.filter (fun p => !p.2)).length
  if failedCount > 0 then
    { success := false,
      message := "Workflow completed with " ++ toString failedCount ++ " failures",
      outcomes := traceOutcomes runner vs 0 cmds, haltedEarly := false }
  else
    { success := true, message := "Workflow completed successfully",
      outcomes := traceOutcomes runner vs 0 cmds, haltedEarly := false }

/-- The mode dispatch of `WorkflowManager.execute` after the workflow
has been fetched: merge run-time variables over stored defaults, then
run the parallel or the sequential branch. -/
def executeCore (runner : String → Bool) (w : StoredWorkflow)
    (vars : List (String × String)) : ExecResult :=
  let vs := mergeVars w.vars vars
  if w.parallel then execPar runner vs w.commands
  else execSeqAux runner vs w.continue_on_error w.commands 0 false

/-- `Database.getWorkflow` (lines 209–237 of `database.js`): select the
row by name; when found, attach its commands and variables, then run an
`UPDATE` that increments `execution_count` and sets `last_executed` to
the current time (`now`).  The returned object carries the values
selected before the update. -/
def dbGetWorkflow (db : List StoredWorkflow) (name : String) (now : Nat) :
    Option StoredWorkflow × List StoredWorkflow :=
  match db.find? (fun w => w.name == name) with
  | none => (none, db)
  | some w =>
    (some w,
     db.map (fun x =>
       if x.name == name then
         { x with execution_count := x.execution_count + 1, last_executed := some now }
       else x))

/-- The single-quote character used by the source's message templates,
written via its code point. -/
def sq : String := String.singleton (Char.ofNat 39)

/-- `WorkflowManager.execute` end to end: fetch the workflow (which, in
the source, is also the only storage write of the whole run), then run
the pure mode dispatch.  Nothing is written to storage after the fetch;
in particular no statistics write-back follows the report. -/
def executeWorkflow (runner : String → Bool) (db : List StoredWorkflow) (now : Nat)
    (name : String) (vars : List (String × String)) : ExecResult × List StoredWorkflow :=
  match dbGetWorkflow db name now with
  | (none, db1) =>
    ({ success := false, message := "Workflow " ++ sq ++ name ++ sq ++ " not found",
       outcomes := [], haltedEarly := false }, db1)
  | (some w, db1) => (executeCore runner w vars, db1)

/-- The `options` object accepted by the save path, with the source's
defaults (`options.description || ''`, `options.parallel ? 1 : 0`,
`options.continueOnError ? 1 : 0`, `options.variables || {}`). -/
structure SaveOptions where
  description : String := ""
  parallel : Bool := false
  continueOnError : Bool := false
  vars : List (String × String) := []
deriving Repr, DecidableEq

/-- The `{ success, message }` object returned by `WorkflowManager.save`. -/
structure SaveResult where
  success : Bool
  message : String
deriving Repr, DecidableEq

/-- `Database.saveWorkflow` (lines 157–207 of `database.js`): an
`INSERT OR REPLACE` of the workflow row — which resets
`execution_count` and `last_executed` to their column defaults — then
one `workflow_commands` insert per element of `commands` (zero inserts
when the list is empty).  There is no emptiness check anywhere on this
path; the only `throw` is a database-level failure, outside this model,
so the function is total and always persists the row. -/
def dbSaveWorkflow (name : String) (commands : List String) (options : SaveOptions)
    (db : List StoredWorkflow) : List StoredWorkflow :=
  let row : StoredWorkflow :=
    { name := name, description := options.description, parallel := options.parallel,
      continue_on_error := options.continueOnError, vars := options.vars,
      commands := commands, execution_count := 0, last_executed := none }
  row :: db.filter (fun w => w.name != name)

/-- `WorkflowManager.save` (lines 17–42 of `manager.js`).  The guard is
the JavaScript truthiness test `!name || !commands`: it rejects an empty
name and a missing (`null`/`undefined`) commands argument, modelled here
as `none`.  An empty *array* is truthy in JavaScript, so `some []`
passes the guard, and `Array.isArray` keeps it as-is. -/
def workflowSave (name : String) (commands : Option (List String))
    (options : SaveOptions) (db : List StoredWorkflow) :
    SaveResult × List StoredWorkflow :=
  if name = "" ∨ commands = none then
    ({ success := false, message := "Name and commands are required" }, db)
  else
    let commandArray := commands.getD []
    let db2 := dbSaveWorkflow name commandArray options db
    ({ success := true,
       message := "Workflow " ++ sq ++ name ++ sq ++ " saved with "
         ++ toString commandArray.length ++ " commands" }, db2)

/-- The anchored regex `^(\d+)([hms])$` of `parseDuration` in the
debug-shell skill: the whole string must be one or more decimal digits
followed by a single unit character.  On a match, return the digit
group's decimal value and the unit. -/
def matchDuration (cs : List Char) : Option (Nat × Char) :=
  match cs.getLast? with
  | none => none
  | some u =>
    if u = 'h' ∨ u = 'm' ∨ u = 's' then
      let ds := cs.dropLast
      if ds ≠ [] ∧ ds.all (fun c => c.isDigit) then
        some (ds.foldl (fun a c => a * 10 + (c.toNat - 48)) 0, u)
      else none
    else none

/-- The decimal value of a digit list, as `parseInt` computes it on the
matched `\d+` group. -/
def digitsToNat (ds : List Char) : Nat :=
  ds.foldl (fun a c => a * 10 + (c.toNat - 48)) 0

/-- The `multipliers` lookup object of `parseDuration`. -/
def multipliers (u : Char) : Nat :=
  if u = 's' then 1000 else if u = 'm' then 60000 else 3600000

/-- `parseDuration` from the debug-shell skill (lines 956–968 of the
unnamed shell-management source): a non-matching input — including the
empty string — silently yields the default 3 600 000 ms (one hour);
a match yields value times the unit multiplier. -/
def parseDuration (duration : String) : Nat :=
  match matchDuration duration.data with
  | none => 3600000
  | some (v, u) => v * multipliers u

/-- The predicate "the string matches `^(\d+)([hms])$`", stated
independently of `matchDuration`'s computation. -/
def MatchesDuration (s : String) : Prop :=
  ∃ ds u, s.data = ds ++ [u] ∧ ds ≠ [] ∧ (∀ c ∈ ds, c.isDigit = true) ∧
    (u = 'h' ∨ u = 'm' ∨ u = 's')

example : parseDuration "30s" = 30000 := by decide
example : parseDuration "5m" = 300000 := by decide
example : parseDuration "2h" = 7200000 := by decide
example : parseDuration "" = 3600000 := by decide
example : parseDuration "90" = 3600000 := by decide
example : parseDuration "5x" = 3600000 := by decide
example : parseDuration "m" = 3600000 := by decide

/-- A pass of `replaceAllFuel` over a string in which the pattern does
not occur leaves the string unchanged, with any fuel. -/
theorem replaceAllFuel_no_occur (pat rep : List Char) :
    ∀ (fuel : Nat) (s : List Char), ¬ pat <:+: s → replaceAllFuel pat rep fuel s = s
  | fuel, [], _ => by cases fuel <;> rfl
  | 0, _ :: _, _ => rfl
  | Nat.succ fuel, c :: rest, h => by
    have hp : ¬ pat.isPrefixOf (c :: rest) = true := by
      intro hpre
      exact h (List.isPrefixOf_iff_prefix.mp hpre).isInfix
    have hrest : ¬ pat <:+: rest := fun hi => h (List.infix_cons hi)
    simp only [replaceAllFuel, hp, if_false, Bool.false_eq_true, if_neg]
    exact congrArg (c :: ·) (replaceAllFuel_no_occur pat rep fuel rest hrest)

/-- String-level version of `replaceAllFuel_no_occur`. -/
theorem strReplaceAll_no_occur (s pat rep : String)
    (h : ¬ pat.data <:+: s.data) : strReplaceAll s pat rep = s := by
  unfold strReplaceAll
  rw [replaceAllFuel_no_occur pat.data rep.data s.data.length s.data h]

/-- Substituting one key into a string containing neither of its two
placeholder patterns leaves the string unchanged. -/
theorem substOneKey_no_occur (s k v : String)
    (hb : ¬ (bracePat k).data <:+: s.data) (ha : ¬ (barePat k).data <:+: s.data) :
    substOneKey s k v = s := by
  unfold substOneKey
  rw [strReplaceAll_no_occur s (bracePat k) v hb,
    strReplaceAll_no_occur s (barePat k) v ha]

/-- `replaceVariables` is the identity on a string in which no key's
placeholder pattern (brace or bare) occurs. -/
theorem replaceVariables_of_no_occurrence (s : String) :
    ∀ (vars : List (String × String)),
      (∀ kv ∈ vars, ¬ (bracePat kv.1).data <:+: s.data ∧ ¬ (barePat kv.1).data <:+: s.data) →
      replaceVariables s vars = s
  | [], _ => rfl
  | (k, v) :: rest, h => by
    have hk := h (k, v) (List.mem_cons_self _ _)
    have hs : substOneKey s k v = s := substOneKey_no_occur s k v hk.1 hk.2
    have hrest : ∀ kv ∈ rest,
        ¬ (bracePat kv.1).data <:+: s.data ∧ ¬ (barePat kv.1).data <:+: s.data :=
      fun kv hkv => h kv (List.mem_cons_of_mem _ hkv)
    calc replaceVariables s ((k, v) :: rest)
        = replaceVariables (substOneKey s k v) rest := rfl
      _ = replaceVariables s rest := by rw [hs]
      _ = s := replaceVariables_of_no_occurrence s rest hrest

/-- With zero fuel the scan returns its subject unchanged. -/
theorem replaceAllFuel_zero (pat rep s : List Char) :
    replaceAllFuel pat rep 0 s = s := by
  cases s <;> rfl

/-- A cons pattern never matches at a cons subject with a different
head character. -/
theorem isPrefixOf_cons_ne (a c : Char) (l t : List Char) (h : a ≠ c) :
    (a :: l).isPrefixOf (c :: t) = false := by
  simp [List.isPrefixOf, h]

/-- The scan of a pattern headed by `$` walks through a block that
contains no `$` without matching anything: the block is emitted verbatim
and the scan resumes after it with the corresponding fuel spent. -/
theorem replaceAllFuel_skip_block (p' rep : List Char) :
    ∀ (B : List Char), '$' ∉ B → ∀ (fuel : Nat) (t : List Char),
      replaceAllFuel ('$' :: p') rep fuel (B ++ t)
        = B ++ replaceAllFuel ('$' :: p') rep (fuel - B.length) t
  | [], _, fuel, t => by simp
  | b :: B', hB, fuel, t => by
    have hb : ('$' : Char) ≠ b := fun h => hB (h ▸ List.mem_cons_self b B')
    have hB' : ('$' : Char) ∉ B' := fun h => hB (List.mem_cons_of_mem b h)
    cases fuel with
    | zero =>
      simp [replaceAllFuel_zero, Nat.zero_sub]
    | succ fuel =>
      have hnp : ('$' :: p').isPrefixOf (b :: (B' ++ t)) = false :=
        isPrefixOf_cons_ne '$' b p' (B' ++ t) hb
      have harith : fuel + 1 - (b :: B').length = fuel - B'.length := by
        simp only [List.length_cons]
        omega
      rw [harith]
      simp only [List.cons_append, replaceAllFuel, List.append_eq, hnp,
        Bool.false_eq_true, if_false]
      rw [replaceAllFuel_skip_block p' rep B' hB' fuel t]

/-- A `$`-headed block whose tail has no `$`, and at whose start the
pattern can never match (whatever follows the block), survives one whole
replace pass verbatim: no match of a `$`-headed pattern can overlap the
block, since a match overlapping it would have to put the block's `$` at
a nonzero offset of the pattern. -/
theorem replaceAllFuel_keeps_block (p' rep Pb : List Char)
    (hPb : '$' ∉ Pb) (hp' : '$' ∉ p')
    (hnm : ∀ u, p'.isPrefixOf (Pb ++ u) = false) :
    ∀ (fuel : Nat) (l t : List Char),
      ∃ l2 t2, replaceAllFuel ('$' :: p') rep fuel (l ++ (('$' :: Pb) ++ t))
        = l2 ++ (('$' :: Pb) ++ t2)
  | 0, l, t => ⟨l, t, by rw [replaceAllFuel_zero]⟩
  | Nat.succ fuel, [], t => by
    refine ⟨[], replaceAllFuel ('$' :: p') rep (fuel - Pb.length) t, ?_⟩
    have h0 : ('$' :: p').isPrefixOf ('$' :: (Pb ++ t)) = false := by
      simp [List.isPrefixOf, hnm t]
    simp only [List.nil_append, List.cons_append, replaceAllFuel, List.append_eq, h0,
      Bool.false_eq_true, if_false]
    rw [replaceAllFuel_skip_block p' rep Pb hPb fuel t]
  | Nat.succ fuel, c :: l', t => by
    have hshape : (c :: l') ++ (('$' :: Pb) ++ t) = c :: (l' ++ (('$' :: Pb) ++ t)) := by
      simp
    cases hm : ('$' :: p').isPrefixOf (c :: (l' ++ (('$' :: Pb) ++ t))) with
    | false =>
      obtain ⟨l2, t2, hrec⟩ := replaceAllFuel_keeps_block p' rep Pb hPb hp' hnm fuel l' t
      refine ⟨c :: l2, t2, ?_⟩
      rw [hshape]
      simp only [replaceAllFuel, List.append_eq, hm, Bool.false_eq_true, if_false]
      rw [hrec]
      simp
    | true =>
      have hm2 := hm
      simp only [List.isPrefixOf, Bool.and_eq_true, beq_iff_eq] at hm2
      have hrest : p'.isPrefixOf (l' ++ (('$' :: Pb) ++ t)) = true := hm2.2
      have hpre : p' <+: l' ++ (('$' :: Pb) ++ t) := List.isPrefixOf_iff_prefix.mp hrest
      have hlen : p'.length ≤ l'.length := by
        by_contra hlt
        push_neg at hlt
        have hl'p : l' <+: p' :=
          List.prefix_of_prefix_length_le (List.prefix_append l' _) hpre (Nat.le_of_lt hlt)
        obtain ⟨e, he⟩ := hl'p
        have hee : e ≠ [] := by
          intro h
          rw [h, List.append_nil] at he
          rw [he] at hlt
          exact Nat.lt_irrefl _ hlt
        have hepre : e <+: ('$' :: Pb) ++ t := by
          have h2 : l' ++ e <+: l' ++ (('$' :: Pb) ++ t) := he ▸ hpre
          exact (List.prefix_append_right_inj l').mp h2
        obtain ⟨eh, e', rfl⟩ := List.exists_cons_of_ne_nil hee
        have heh : eh = '$' := by
          rw [List.cons_append] at hepre
          exact (List.cons_prefix_cons.mp hepre).1
        subst heh
        exact hp' (he ▸ List.mem_append_right l' (List.mem_cons_self _ _))
      have hdrop : List.drop (('$' :: p').length - 1) (l' ++ (('$' :: Pb) ++ t))
          = List.drop p'.length l' ++ (('$' :: Pb) ++ t) := by
        have hl1 : ('$' :: p').length - 1 = p'.length := by simp
        rw [hl1, List.drop_append_of_le_length hlen]
      obtain ⟨l2, t2, hrec⟩ :=
        replaceAllFuel_keeps_block p' rep Pb hPb hp' hnm fuel (List.drop p'.length l') t
      refine ⟨rep ++ l2, t2, ?_⟩
      rw [hshape]
      simp only [replaceAllFuel, List.append_eq, hm, if_true]
      rw [hdrop, hrec]
      simp [List.append_assoc]

/-- Interleave a separator between chunks (the shape of a replace-all
output: unmatched text with the replacement spliced at each match). -/
def joinWith (sep : List Char) : List (List Char) → List Char
  | [] => []
  | [x] => x
  | x :: xs => x ++ sep ++ joinWith sep xs

/-- The match decomposition that `replaceAllFuel` induces on its
subject: the maximal unmatched segments, in order, one gap per match.
It mentions only the subject and the pattern — not the replacement — so
the match positions of a pass are independent of the replacement
text. -/
def splitChunksFuel (pat : List Char) : Nat → List Char → List (List Char)
  | _, [] => [[]]
  | 0, s => [s]
  | Nat.succ fuel, c :: rest =>
    if pat.isPrefixOf (c :: rest) then
      [] :: splitChunksFuel pat fuel (List.drop (pat.length - 1) rest)
    else
      match splitChunksFuel pat fuel rest with
      | [] => [[c]]
      | chunk :: chunks => (c :: chunk) :: chunks

/-- The chunk list is never empty. -/
theorem splitChunksFuel_ne_nil (pat : List Char) :
    ∀ (fuel : Nat) (s : List Char), splitChunksFuel pat fuel s ≠ []
  | fuel, [] => by cases fuel <;> simp [splitChunksFuel]
  | 0, _ :: _ => by simp [splitChunksFuel]
  | Nat.succ fuel, c :: rest => by
    by_cases hp : pat.isPrefixOf (c :: rest) = true
    · simp [splitChunksFuel, hp]
    · simp only [splitChunksFuel, hp, Bool.false_eq_true, if_neg]
      cases splitChunksFuel pat fuel rest <;> simp

/-- A replace-all pass equals the chunk decomposition of the original
string joined with the replacement text: every match found in the
original is replaced, the replacement is spliced verbatim, and — since
`splitChunksFuel` does not depend on `rep` — the spliced text is never
rescanned within the pass. -/
theorem replaceAllFuel_eq_joinWith (pat rep : List Char) :
    ∀ (fuel : Nat) (s : List Char),
      replaceAllFuel pat rep fuel s = joinWith rep (splitChunksFuel pat fuel s)
  | fuel, [] => by cases fuel <;> simp [replaceAllFuel, splitChunksFuel, joinWith]
  | 0, _ :: _ => by simp [replaceAllFuel, splitChunksFuel, joinWith]
  | Nat.succ fuel, c :: rest => by
    by_cases hp : pat.isPrefixOf (c :: rest) = true
    · simp only [replaceAllFuel, splitChunksFuel, hp, if_true]
      obtain ⟨chunk, chunks, hck⟩ :
          ∃ ck cks, splitChunksFuel pat fuel (List.drop (pat.length - 1) rest) = ck :: cks := by
        cases h : splitChunksFuel pat fuel (List.drop (pat.length - 1) rest) with
        | nil => exact absurd h (splitChunksFuel_ne_nil pat fuel _)
        | cons ck cks => exact ⟨ck, cks, rfl⟩
      rw [replaceAllFuel_eq_joinWith pat rep fuel (List.drop (pat.length - 1) rest), hck]
      simp [joinWith]
    · simp only [replaceAllFuel, splitChunksFuel, hp, Bool.false_eq_true, if_neg]
      obtain ⟨chunk, chunks, hck⟩ :
          ∃ ck cks, splitChunksFuel pat fuel rest = ck :: cks := by
        cases h : splitChunksFuel pat fuel rest with
        | nil => exact absurd h (splitChunksFuel_ne_nil pat fuel _)
        | cons ck cks => exact ⟨ck, cks, rfl⟩
      rw [replaceAllFuel_eq_joinWith pat rep fuel rest, hck]
      cases chunks with
      | nil => simp [joinWith]
      | cons d ds => simp [joinWith]

/-- Joining the chunks with the pattern itself reconstructs the original
string: the decomposition loses nothing, so the pass is exhaustive over
the whole original string. -/
theorem joinWith_splitChunksFuel (pat : List Char) (hpat : pat ≠ []) :
    ∀ (fuel : Nat) (s : List Char), joinWith pat (splitChunksFuel pat fuel s) = s
  | fuel, [] => by cases fuel <;> simp [splitChunksFuel, joinWith]
  | 0, _ :: _ => by simp [splitChunksFuel, joinWith]
  | Nat.succ fuel, c :: rest => by
    by_cases hp : pat.isPrefixOf (c :: rest) = true
    · simp only [splitChunksFuel, hp, if_true]
      obtain ⟨chunk, chunks, hck⟩ :
          ∃ ck cks, splitChunksFuel pat fuel (List.drop (pat.length - 1) rest) = ck :: cks := by
        cases h : splitChunksFuel pat fuel (List.drop (pat.length - 1) rest) with
        | nil => exact absurd h (splitChunksFuel_ne_nil pat fuel _)
        | cons ck cks => exact ⟨ck, cks, rfl⟩
      rw [hck]
      have hdrop : joinWith pat (splitChunksFuel pat fuel (List.drop (pat.length - 1) rest))
          = List.drop (pat.length - 1) rest :=
        joinWith_splitChunksFuel pat hpat fuel _
      rw [hck] at hdrop
      have hpre : pat ++ List.drop pat.length (c :: rest) = c :: rest :=
        List.prefix_iff_eq_append.mp (List.isPrefixOf_iff_prefix.mp hp)
      have hlen : pat.length = (pat.length - 1) + 1 :=
        (Nat.succ_pred_eq_of_pos (List.length_pos.mpr hpat)).symm
      have hdrop2 : List.drop pat.length (c :: rest) = List.drop (pat.length - 1) rest := by
        rw [hlen]; rfl
      rw [hdrop2] at hpre
      simp [joinWith, hdrop, hpre]
    · simp only [splitChunksFuel, hp, Bool.false_eq_true, if_neg]
      obtain ⟨chunk, chunks, hck⟩ :
          ∃ ck cks, splitChunksFuel pat fuel rest = ck :: cks := by
        cases h : splitChunksFuel pat fuel rest with
        | nil => exact absurd h (splitChunksFuel_ne_nil pat fuel _)
        | cons ck cks => exact ⟨ck, cks, rfl⟩
      have hrest : joinWith pat (splitChunksFuel pat fuel rest) = rest :=
        joinWith_splitChunksFuel pat hpat fuel rest
      rw [hck] at hrest
      rw [hck]
      cases chunks with
      | nil => simp_all [joinWith]
      | cons d ds => simp_all [joinWith]

/-- The trace has one outcome per command. -/
theorem traceOutcomes_length (runner : String → Bool) (vs : List (String × String)) :
    ∀ (n : Nat) (cs : List String), (traceOutcomes runner vs n cs).length = cs.length
  | _, [] => rfl
  | n, _ :: rest => by
    simp [traceOutcomes, traceOutcomes_length runner vs (n + 1) rest]

/-- The outcome at position `i` of the trace belongs to the command at
position `i`, carries its resolved text, and records the runner's
verdict on it. -/
theorem traceOutcomes_get? (runner : String → Bool) (vs : List (String × String)) :
    ∀ (cs : List String) (n i : Nat) (c : String), cs.get? i = some c →
      (traceOutcomes runner vs n cs).get? i
        = some ⟨n + i, replaceVariables c vs, runner (replaceVariables c vs)⟩
  | [], _, i, c, h => by simp at h
  | c0 :: rest, n, 0, c, h => by
    simp only [List.get?_cons_zero, Option.some.injEq] at h
    subst h
    simp [traceOutcomes]
  | c0 :: rest, n, Nat.succ i, c, h => by
    simp only [List.get?_cons_succ] at h
    have IH := traceOutcomes_get? runner vs rest (n + 1) i c h
    have harith : n + 1 + i = n + (i + 1) := by omega
    simp only [traceOutcomes, List.get?_cons_succ]
    rw [IH, harith]

/-- Closed form of the sequential loop under `continue_on_error = true`:
it never returns early, dispatches every command in order, and reports
boolean success with the with-errors message exactly when the `failed`
flag was or becomes set. -/
theorem execSeqAux_continue (runner : String → Bool) (vs : List (String × String)) :
    ∀ (cs : List String) (n : Nat) (failed : Bool),
      execSeqAux runner vs true cs n failed =
        { success := true,
          message := if failed || cs.any (fun c => !(runner (replaceVariables c vs)))
                     then "Workflow completed with errors"
                     else "Workflow completed successfully",
          outcomes := traceOutcomes runner vs n cs,
          haltedEarly := false }
  | [], n, failed => by
    cases failed <;> simp [execSeqAux, traceOutcomes]
  | c :: rest, n, failed => by
    by_cases hr : runner (replaceVariables c vs) = true
    · have IH := execSeqAux_continue runner vs rest (n + 1) failed
      simp [execSeqAux, hr, IH, traceOutcomes]
    · have hr' : runner (replaceVariables c vs) = false := by
        cases h : runner (replaceVariables c vs) with
        | true => exact absurd h hr
        | false => rfl
      have IH := execSeqAux_continue runner vs rest (n + 1) true
      simp [execSeqAux, hr', IH, traceOutcomes]

/-- Closed form of the sequential loop under `continue_on_error = false`
when the commands split as an all-fulfilling prefix followed by a
rejecting command: the loop dispatches exactly the prefix and the
rejecting command, records their outcomes, and returns early with the
failure message for the rejecting position; nothing after it is
dispatched (the trace ends at the failing outcome). -/
theorem execSeqAux_halt (runner : String → Bool) (vs : List (String × String))
    (a : String) (ha : runner (replaceVariables a vs) = false) :
    ∀ (pre post : List String) (n : Nat) (failed : Bool),
      (∀ c ∈ pre, runner (replaceVariables c vs) = true) →
      execSeqAux runner vs false (pre ++ a :: post) n failed =
        { success := false,
          message := "Workflow failed at command " ++ toString (n + pre.length + 1),
          outcomes := traceOutcomes runner vs n pre
            ++ [⟨n + pre.length, replaceVariables a vs, false⟩],
          haltedEarly := true }
  | [], post, n, failed, _ => by
    simp [execSeqAux, ha, traceOutcomes]
  | p :: pre, post, n, failed, hpre => by
    have hp : runner (replaceVariables p vs) = true := hpre p (List.mem_cons_self _ _)
    have IH := execSeqAux_halt runner vs a ha pre post (n + 1) failed
      (fun c hc => hpre c (List.mem_cons_of_mem _ hc))
    have harith : n + 1 + pre.length = n + (pre.length + 1) := by omega
    rw [harith] at IH
    simp only [List.cons_append, execSeqAux, hp, if_true, List.append_eq]
    rw [IH]
    simp [traceOutcomes, hp]

/-- The outcomes trace of the parallel branch is the index-aligned
trace of the command list, in both the some-failures and the
all-fulfilled return paths. -/
theorem execPar_outcomes (runner : String → Bool) (vs : List (String × String))
    (cmds : List String) :
    (execPar runner vs cmds).outcomes = traceOutcomes runner vs 0 cmds := by
  unfold execPar
  dsimp only
  split <;> rfl

/-- Character-list shape of the brace pattern. -/
theorem bracePat_data (k : String) :
    (bracePat k).data = '$' :: ('{' :: (k.data ++ ['}'])) := by
  simp [bracePat, String.data_append]

/-- Character-list shape of the bare pattern. -/
theorem barePat_data (k : String) : (barePat k).data = '$' :: k.data := by
  simp [barePat, String.data_append]

/-- A nonempty string has a nonempty character list. -/
theorem data_ne_nil (k : String) (h : k ≠ "") : k.data ≠ [] := by
  intro hd
  apply h
  cases k with
  | mk d => cases hd; rfl

/-- Strings with the same character list are equal. -/
theorem string_eq_of_data (a b : String) (h : a.data = b.data) : a = b := by
  cases a
  cases b
  cases h
  rfl

/-- Mismatch of distinct `}`-terminated bodies: for `}`-free `k ≠ x`,
the body `k}` never matches at the start of `x}` followed by anything —
the two bodies differ before either terminator is reached. -/
theorem not_isPrefixOf_brace_body :
    ∀ (k x t : List Char), k ≠ x → '}' ∉ k → '}' ∉ x →
      (k ++ ['}']).isPrefixOf ((x ++ ['}']) ++ t) = false
  | [], x, t, hkx, _, hx => by
    cases x with
    | nil => exact absurd rfl hkx
    | cons c x' =>
      have hc : ('}' : Char) ≠ c := fun h => hx (h ▸ List.mem_cons_self c x')
      simpa using isPrefixOf_cons_ne '}' c [] ((x' ++ ['}']) ++ t) hc
  | a :: k', x, t, hkx, hk, hx => by
    have ha : ('}' : Char) ≠ a := fun h => hk (h ▸ List.mem_cons_self a k')
    cases x with
    | nil =>
      simpa using isPrefixOf_cons_ne a '}' (k' ++ ['}']) t (fun h => ha h.symm)
    | cons c x' =>
      by_cases hac : a = c
      · subst hac
        have hk' : ('}' : Char) ∉ k' := fun h => hk (List.mem_cons_of_mem a h)
        have hx' : ('}' : Char) ∉ x' := fun h => hx (List.mem_cons_of_mem a h)
        have hkx' : k' ≠ x' := fun h => hkx (h ▸ rfl)
        have hrec := not_isPrefixOf_brace_body k' x' t hkx' hk' hx'
        simpa [List.isPrefixOf] using hrec
      · simpa using isPrefixOf_cons_ne a c (k' ++ ['}']) ((x' ++ ['}']) ++ t) hac

/-- Mismatch of prefix-free lists: if neither of `k`, `x` is a prefix of
the other, `k` never matches at the start of `x` followed by anything. -/
theorem not_isPrefixOf_bare :
    ∀ (k x t : List Char), ¬ k <+: x → ¬ x <+: k → k.isPrefixOf (x ++ t) = false
  | [], x, _, hkx, _ => absurd List.nil_prefix hkx
  | a :: k', x, t, hkx, hxk => by
    cases x with
    | nil => exact absurd List.nil_prefix hxk
    | cons c x' =>
      by_cases hac : a = c
      · subst hac
        have hkx' : ¬ k' <+: x' := fun h => hkx (List.cons_prefix_cons.mpr ⟨rfl, h⟩)
        have hxk' : ¬ x' <+: k' := fun h => hxk (List.cons_prefix_cons.mpr ⟨rfl, h⟩)
        have hrec := not_isPrefixOf_bare k' x' t hkx' hxk'
        simpa [List.isPrefixOf] using hrec
      · exact isPrefixOf_cons_ne a c k' (x' ++ t) hac

/-- One whole string-level replace pass keeps a `$`-headed block whose
tail is `$`-free and at whose start the pattern can never match. -/
theorem strReplaceAll_keeps_block (s pat rep : String) (p' Pb : List Char)
    (hpat : pat.data = '$' :: p')
    (hPb : '$' ∉ Pb) (hp' : '$' ∉ p')
    (hnm : ∀ u, p'.isPrefixOf (Pb ++ u) = false)
    (hin : ('$' :: Pb) <:+: s.data) :
    ('$' :: Pb) <:+: (strReplaceAll s pat rep).data := by
  obtain ⟨l, t, hlt⟩ := hin
  have hs : s.data = l ++ (('$' :: Pb) ++ t) := by
    rw [← hlt, List.append_assoc]
  obtain ⟨l2, t2, h2⟩ :=
    replaceAllFuel_keeps_block p' rep.data Pb hPb hp' hnm s.data.length l t
  refine ⟨l2, t2, ?_⟩
  show (l2 ++ ('$' :: Pb)) ++ t2 = (strReplaceAll s pat rep).data
  rw [List.append_assoc, ← h2]
  unfold strReplaceAll
  rw [hpat]
  rw [show s.data = l ++ (('$' :: Pb) ++ t) from hs]

/-- Substituting one `$`-free key keeps a `$`-headed block it can match
at the start of neither via its brace pattern nor via its bare one. -/
theorem substOneKey_keeps_block (s k v : String) (Pb : List Char)
    (hPb : '$' ∉ Pb) (hkd : '$' ∉ k.data)
    (hbrace : ∀ u, ('{' :: (k.data ++ ['}'])).isPrefixOf (Pb ++ u) = false)
    (hbare : ∀ u, k.data.isPrefixOf (Pb ++ u) = false)
    (hin : ('$' :: Pb) <:+: s.data) :
    ('$' :: Pb) <:+: (substOneKey s k v).data := by
  have hp'b : ('$' : Char) ∉ '{' :: (k.data ++ ['}']) := by
    simp only [List.mem_cons, List.mem_append, List.mem_singleton]
    push_neg
    refine ⟨by decide, fun h => hkd h, by decide⟩
  unfold substOneKey
  apply strReplaceAll_keeps_block _ _ _ k.data Pb (barePat_data k) hPb hkd hbare
  exact strReplaceAll_keeps_block _ _ _ ('{' :: (k.data ++ ['}'])) Pb
    (bracePat_data k) hPb hp'b hbrace hin

/-- The full substitution fold keeps a `$`-headed block that no key's
pattern can match at the start of. -/
theorem replaceVariables_keeps_block (Pb : List Char) (hPb : '$' ∉ Pb) :
    ∀ (vars : List (String × String)) (s : String),
      (∀ kv ∈ vars, '$' ∉ kv.1.data ∧
        (∀ u, ('{' :: (kv.1.data ++ ['}'])).isPrefixOf (Pb ++ u) = false) ∧
        (∀ u, kv.1.data.isPrefixOf (Pb ++ u) = false)) →
      ('$' :: Pb) <:+: s.data →
      ('$' :: Pb) <:+: (replaceVariables s vars).data
  | [], _, _, hin => hin
  | (k, v) :: rest, s, h, hin => by
    have hk := h (k, v) (List.mem_cons_self _ _)
    have hrest : ∀ kv ∈ rest, '$' ∉ kv.1.data ∧
        (∀ u, ('{' :: (kv.1.data ++ ['}'])).isPrefixOf (Pb ++ u) = false) ∧
        (∀ u, kv.1.data.isPrefixOf (Pb ++ u) = false) :=
      fun kv hkv => h kv (List.mem_cons_of_mem _ hkv)
    have h1 : ('$' :: Pb) <:+: (substOneKey s k v).data :=
      substOneKey_keeps_block s k v Pb hPb hk.1 hk.2.1 hk.2.2 hin
    exact replaceVariables_keeps_block Pb hPb rest (substOneKey s k v) hrest h1

/-- C7, counterexample: with the variable map `{env: "prod"}`, the bare
placeholder `$envx` — whose name `envx` is not a key of the map — is not
left verbatim: the source's regex `\$env` has no word boundary, so the
key `env`, a prefix of `envx`, captures the head of the placeholder and
the output is `prodx`. -/
theorem c7_counterexample :
    replaceVariables "$envx" [("env", "prod")] = "prodx" ∧
    replaceVariables "$envx" [("env", "prod")] ≠ "$envx" := by decide

/-- C7, amended: substitution is a total function (it never raises),
and placeholder occurrences are preserved per-occurrence, even in mixed
templates whose other placeholders are substituted around them.  For
identifier-shaped keys (nonempty, containing no `$`, `{`, `}`) and an
identifier-shaped name `x`: every occurrence of the brace placeholder
`${x}` with `x` not a key survives every substitution pass verbatim into
the output; an occurrence of the bare placeholder `$x` survives provided
no key is in a prefix relation with `x` — the counterexample's head
capture happens exactly when a key is a prefix of the bare name, because
the source's bare regex has no word boundary. -/
theorem c7_unmatched_placeholder_verbatim (s x : String) (vars : List (String × String))
    (hkeys : ∀ kv ∈ vars, kv.1 ≠ "" ∧ ∀ c ∈ kv.1.data, c ≠ '$' ∧ c ≠ '{' ∧ c ≠ '}')
    (hx : ∀ c ∈ x.data, c ≠ '$' ∧ c ≠ '{' ∧ c ≠ '}') :
    ((∀ kv ∈ vars, kv.1 ≠ x) → (bracePat x).data <:+: s.data →
      (bracePat x).data <:+: (replaceVariables s vars).data) ∧
    (x ≠ "" → (∀ kv ∈ vars, ¬ kv.1.data <+: x.data ∧ ¬ x.data <+: kv.1.data) →
      (barePat x).data <:+: s.data →
      (barePat x).data <:+: (replaceVariables s vars).data) := by
  constructor
  · intro hnotkey hocc
    have hPb : ('$' : Char) ∉ '{' :: (x.data ++ ['}']) := by
      simp only [List.mem_cons, List.mem_append, List.mem_singleton]
      push_neg
      exact ⟨by decide, fun hc => (hx '$' hc).1 rfl, by decide⟩
    rw [bracePat_data] at hocc ⊢
    apply replaceVariables_keeps_block ('{' :: (x.data ++ ['}'])) hPb vars s ?_ hocc
    intro kv hkv
    obtain ⟨hkne, hkchars⟩ := hkeys kv hkv
    have hkd : ('$' : Char) ∉ kv.1.data := fun hc => (hkchars '$' hc).1 rfl
    refine ⟨hkd, ?_, ?_⟩
    · intro u
      have hkx : kv.1.data ≠ x.data :=
        fun h => hnotkey kv hkv (string_eq_of_data kv.1 x h)
      have hbody := not_isPrefixOf_brace_body kv.1.data x.data u hkx
        (fun hc => (hkchars '}' hc).2.2 rfl) (fun hc => (hx '}' hc).2.2 rfl)
      simp only [List.cons_append, List.isPrefixOf, beq_self_eq_true, Bool.true_and]
      exact hbody
    · intro u
      obtain ⟨kc, k2, hk⟩ := List.exists_cons_of_ne_nil (data_ne_nil kv.1 hkne)
      have hkc : kc ≠ '{' := by
        have hm : kc ∈ kv.1.data := by
          rw [hk]
          exact List.mem_cons_self _ _
        exact (hkchars kc hm).2.1
      rw [hk]
      simp only [List.cons_append]
      exact isPrefixOf_cons_ne kc '{' k2 ((x.data ++ ['}']) ++ u) hkc
  · intro hxe hpf hocc
    have hPb : ('$' : Char) ∉ x.data := fun hc => (hx '$' hc).1 rfl
    rw [barePat_data] at hocc ⊢
    apply replaceVariables_keeps_block x.data hPb vars s ?_ hocc
    intro kv hkv
    obtain ⟨hkne, hkchars⟩ := hkeys kv hkv
    have hkd : ('$' : Char) ∉ kv.1.data := fun hc => (hkchars '$' hc).1 rfl
    obtain ⟨xc, x2, hxd⟩ := List.exists_cons_of_ne_nil (data_ne_nil x hxe)
    refine ⟨hkd, ?_, ?_⟩
    · intro u
      have hxc : ('{' : Char) ≠ xc := by
        have hm : xc ∈ x.data := by
          rw [hxd]
          exact List.mem_cons_self _ _
        exact fun h => (hx xc hm).2.1 h.symm
      rw [hxd]
      simp only [List.cons_append]
      exact isPrefixOf_cons_ne '{' xc (kv.1.data ++ ['}']) (x2 ++ u) hxc
    · intro u
      exact not_isPrefixOf_bare kv.1.data x.data u (hpf kv hkv).1 (hpf kv hkv).2

/-- C7 amended, witness: in the mixed template `deploy $env ${region}`
with map `{env: "prod"}`, the key is substituted around the unmatched
placeholder and `${region}` survives verbatim in the output. -/
theorem c7_unmatched_placeholder_verbatim_witness :
    replaceVariables "deploy $env $\x7bregion\x7d" [("env", "prod")]
        = "deploy prod $\x7bregion\x7d" ∧
    (bracePat "region").data <:+:
      (replaceVariables "deploy $env $\x7bregion\x7d" [("env", "prod")]).data :=
  ⟨by decide,
   (c7_unmatched_placeholder_verbatim "deploy $env $\x7bregion\x7d" "region"
      [("env", "prod")] (by decide) (by decide)).1 (by decide) (by decide)⟩

/-- C8, counterexample: substituting the map `{a: "${b}", b: "X"}`
(insertion order `a` then `b`) into the template `${a}` yields `X`: the
text `${b}` inserted as `a`'s value is reprocessed as a placeholder for
the later variable `b` within the same substitution call, contradicting
the claim that inserted values are never reprocessed for any other
variable. -/
theorem c8_counterexample :
    replaceVariables "$\x7ba\x7d" [("a", "$\x7bb\x7d"), ("b", "X")] = "X" ∧
    replaceVariables "$\x7ba\x7d" [("a", "$\x7bb\x7d"), ("b", "X")] ≠ "$\x7bb\x7d" := by decide

/-- C8, amended: each key is substituted in one exhaustive left-to-right
pass over the whole current string — the pass's match decomposition
(`splitChunksFuel`) depends only on the subject and the pattern, joining
it with the pattern reconstructs the subject (nothing is missed), and
the replacement is spliced verbatim between the chunks, so text inserted
for a key is never rescanned for that same key within its pass; however,
the per-key passes are folded in sequence, so text inserted for an
earlier key is part of the subject that later keys' passes scan (as the
counterexample forces). -/
theorem c8_single_pass_per_key (pat rep s : List Char) (hpat : pat ≠ []) :
    replaceAllFuel pat rep s.length s = joinWith rep (splitChunksFuel pat s.length s) ∧
    joinWith pat (splitChunksFuel pat s.length s) = s ∧
    ∀ (cmd k v : String) (rest : List (String × String)),
      replaceVariables cmd ((k, v) :: rest) = replaceVariables (substOneKey cmd k v) rest :=
  ⟨replaceAllFuel_eq_joinWith pat rep s.length s,
   joinWith_splitChunksFuel pat hpat s.length s,
   fun _ _ _ _ => rfl⟩

/-- C8 amended, witness: the pass of pattern `ab`, replacement `a` over
`abb` replaces the single original occurrence (yielding `ab`, which the
pass does not rescan even though it again contains the pattern). -/
theorem c8_single_pass_per_key_witness :
    replaceAllFuel ['a', 'b'] ['a'] 3 ['a', 'b', 'b']
        = joinWith ['a'] (splitChunksFuel ['a', 'b'] 3 ['a', 'b', 'b']) ∧
    joinWith ['a', 'b'] (splitChunksFuel ['a', 'b'] 3 ['a', 'b', 'b']) = ['a', 'b', 'b'] ∧
    ∀ (cmd k v : String) (rest : List (String × String)),
      replaceVariables cmd ((k, v) :: rest) = replaceVariables (substOneKey cmd k v) rest :=
  c8_single_pass_per_key ['a', 'b'] ['a'] ['a', 'b', 'b'] (by decide)

/-- C9: a string containing no occurrence of any key's `${k}` or `$k`
pattern is a fixed point of the Substitutor, so re-running it on such an
already-substituted output returns the identical string. -/
theorem c9_idempotent_substitution (s : String) (vars : List (String × String))
    (h : ∀ kv ∈ vars,
      ¬ (bracePat kv.1).data <:+: s.data ∧ ¬ (barePat kv.1).data <:+: s.data) :
    replaceVariables s vars = s ∧
    replaceVariables (replaceVariables s vars) vars = replaceVariables s vars := by
  have h1 := replaceVariables_of_no_occurrence s vars h
  exact ⟨h1, by rw [h1]; exact h1⟩

/-- C9, witness: `echo build:staging` with map `{env: "staging"}` is
unchanged by a further pass. -/
theorem c9_idempotent_substitution_witness :
    replaceVariables "echo build:staging" [("env", "staging")] = "echo build:staging" ∧
    replaceVariables (replaceVariables "echo build:staging" [("env", "staging")])
        [("env", "staging")]
      = replaceVariables "echo build:staging" [("env", "staging")] :=
  c9_idempotent_substitution "echo build:staging" [("env", "staging")] (by decide)

/-- Runner oracle under which exactly the command `A` rejects. -/
def runNotA : String → Bool := fun s => s != "A"

/-- Runner oracle under which exactly the command `B` rejects. -/
def runNotB : String → Bool := fun s => s != "B"

/-- Runner oracle under which every command rejects. -/
def runNone : String → Bool := fun _ => false

/-- Sequential stop-on-error workflow `[A, B, C]`. -/
def wfSeqStop : StoredWorkflow :=
  { name := "t", description := "", parallel := false, continue_on_error := false,
    vars := [], commands := ["A", "B", "C"], execution_count := 0, last_executed := none }

/-- Sequential continue-on-error workflow `[A, B, C]`. -/
def wfSeqCont : StoredWorkflow :=
  { name := "t", description := "", parallel := false, continue_on_error := true,
    vars := [], commands := ["A", "B", "C"], execution_count := 0, last_executed := none }

/-- Parallel workflow `[A, B, C]`. -/
def wfPar : StoredWorkflow :=
  { name := "t", description := "", parallel := true, continue_on_error := false,
    vars := [], commands := ["A", "B", "C"], execution_count := 0, last_executed := none }

/-- Workflow with zero commands. -/
def wfEmpty : StoredWorkflow :=
  { name := "empty", description := "", parallel := false, continue_on_error := false,
    vars := [], commands := [], execution_count := 0, last_executed := none }

/-- C1: in sequential mode with `continue_on_error = false`, when the
command list splits as an all-fulfilling prefix followed by a rejecting
command at index `pre.length`, the run records the prefix's outcomes and
the failing outcome, dispatches nothing after the failing command (the
trace ends at it: `post` contributes no outcome), returns early
(`haltedEarly = true`), and reports failure (`success = false`, the
code's rendering of `overallStatus = Failed`).  With `pre = []` this is
the `[A, B, C]`, A-fails instance: the report holds exactly the single
outcome for A. -/
theorem c1_sequential_halt (runner : String → Bool) (w : StoredWorkflow)
    (vars : List (String × String)) (pre post : List String) (a : String)
    (hpar : w.parallel = false) (hcoe : w.continue_on_error = false)
    (hsplit : w.commands = pre ++ a :: post)
    (hpre : ∀ c ∈ pre, runner (replaceVariables c (mergeVars w.vars vars)) = true)
    (hfail : runner (replaceVariables a (mergeVars w.vars vars)) = false) :
    executeCore runner w vars =
      { success := false,
        message := "Workflow failed at command " ++ toString (pre.length + 1),
        outcomes := traceOutcomes runner (mergeVars w.vars vars) 0 pre
          ++ [⟨pre.length, replaceVariables a (mergeVars w.vars vars), false⟩],
        haltedEarly := true } := by
  unfold executeCore
  rw [hpar, hsplit, hcoe]
  have h := execSeqAux_halt runner (mergeVars w.vars vars) a hfail pre post 0 false hpre
  simpa using h

/-- C1, witness: `[A, B, C]` where A rejects — the report is the single
failing outcome for A, B and C are not dispatched. -/
theorem c1_sequential_halt_witness :
    executeCore runNotA wfSeqStop [] =
      { success := false, message := "Workflow failed at command 1",
        outcomes := [⟨0, "A", false⟩], haltedEarly := true } := by
  rw [c1_sequential_halt runNotA wfSeqStop [] [] ["B", "C"] "A" rfl rfl rfl
    (fun c hc => absurd hc (List.not_mem_nil c)) (by decide)]
  decide

/-- C2, counterexample: sequential `[A, B, C]` with
`continue_on_error = true` where exactly B rejects.  The source returns
`success: true` (with the message `Workflow completed with errors`), so
the run *is* reported as an overall success, contradicting the claim's
`overallStatus = PartialFailure` (not an overall success). -/
theorem c2_counterexample :
    (executeCore runNotB wfSeqCont []).success = true ∧
    (executeCore runNotB wfSeqCont []).message = "Workflow completed with errors" := by
  decide

/-- C2, amended: in sequential mode with `continue_on_error = true`,
when at least one command rejects and at least one fulfils, every
command is dispatched in order, the report holds one outcome per command
in order (position `i` holds index `i`, the resolved text of command
`i`, and its verdict), the run is not halted early, and the result is
the distinguished with-errors message — but with `success = true`: the
code reports a boolean success with a warning message, not a
`PartialFailure` status distinct from success. -/
theorem c2_sequential_continue (runner : String → Bool) (w : StoredWorkflow)
    (vars : List (String × String))
    (hpar : w.parallel = false) (hcoe : w.continue_on_error = true)
    (hfail : ∃ c ∈ w.commands, runner (replaceVariables c (mergeVars w.vars vars)) = false)
    (hsucc : ∃ c ∈ w.commands, runner (replaceVariables c (mergeVars w.vars vars)) = true) :
    executeCore runner w vars =
      { success := true, message := "Workflow completed with errors",
        outcomes := traceOutcomes runner (mergeVars w.vars vars) 0 w.commands,
        haltedEarly := false } ∧
    (executeCore runner w vars).outcomes.length = w.commands.length ∧
    ∀ i c, w.commands.get? i = some c →
      (executeCore runner w vars).outcomes.get? i =
        some ⟨i, replaceVariables c (mergeVars w.vars vars),
          runner (replaceVariables c (mergeVars w.vars vars))⟩ := by
  have hany : w.commands.any
      (fun c => !(runner (replaceVariables c (mergeVars w.vars vars)))) = true := by
    obtain ⟨c, hc, hcf⟩ := hfail
    exact List.any_eq_true.mpr ⟨c, hc, by rw [hcf]; rfl⟩
  have hcore : executeCore runner w vars =
      { success := true, message := "Workflow completed with errors",
        outcomes := traceOutcomes runner (mergeVars w.vars vars) 0 w.commands,
        haltedEarly := false } := by
    unfold executeCore
    rw [hpar, hcoe]
    show execSeqAux runner (mergeVars w.vars vars) true w.commands 0 false = _
    rw [execSeqAux_continue runner (mergeVars w.vars vars) w.commands 0 false]
    simp [hany]
  refine ⟨hcore, ?_, ?_⟩
  · rw [hcore]
    exact traceOutcomes_length runner (mergeVars w.vars vars) 0 w.commands
  · intro i c hc
    rw [hcore]
    have h := traceOutcomes_get? runner (mergeVars w.vars vars) w.commands 0 i c hc
    simpa using h

/-- C2 amended, witness: `[A, B, C]` where only B rejects — three
outcomes in order, with-errors message, `success = true`. -/
theorem c2_sequential_continue_witness :
    executeCore runNotB wfSeqCont [] =
      { success := true, message := "Workflow completed with errors",
        outcomes := traceOutcomes runNotB (mergeVars wfSeqCont.vars []) 0 wfSeqCont.commands,
        haltedEarly := false } ∧
    (executeCore runNotB wfSeqCont []).outcomes.length = wfSeqCont.commands.length ∧
    ∀ i c, wfSeqCont.commands.get? i = some c →
      (executeCore runNotB wfSeqCont []).outcomes.get? i =
        some ⟨i, replaceVariables c (mergeVars wfSeqCont.vars []),
          runNotB (replaceVariables c (mergeVars wfSeqCont.vars []))⟩ :=
  c2_sequential_continue runNotB wfSeqCont [] rfl rfl
    ⟨"B", by decide, by decide⟩ ⟨"A", by decide, by decide⟩

/-- C3: in parallel mode the `continue_on_error` flag is never
consulted — the run's result is identical for either value of the
flag — and every command is resolved, dispatched and given a recorded
outcome at its own index carrying its verdict, regardless of which
commands reject (the runner is arbitrary, so any pattern of failures
leaves the other commands' outcomes intact). -/
theorem c3_parallel_no_short_circuit (runner : String → Bool) (w : StoredWorkflow)
    (vars : List (String × String)) (b : Bool) (hpar : w.parallel = true) :
    executeCore runner { w with continue_on_error := b } vars = executeCore runner w vars ∧
    (executeCore runner w vars).outcomes.length = w.commands.length ∧
    ∀ i c, w.commands.get? i = some c →
      (executeCore runner w vars).outcomes.get? i =
        some ⟨i, replaceVariables c (mergeVars w.vars vars),
          runner (replaceVariables c (mergeVars w.vars vars))⟩ := by
  refine ⟨?_, ?_, ?_⟩
  · simp [executeCore, hpar]
  · simp only [executeCore, hpar, if_true]
    rw [execPar_outcomes]
    exact traceOutcomes_length runner (mergeVars w.vars vars) 0 w.commands
  · intro i c hc
    simp only [executeCore, hpar, if_true]
    rw [execPar_outcomes]
    have h := traceOutcomes_get? runner (mergeVars w.vars vars) w.commands 0 i c hc
    simpa using h

/-- C3, witness: parallel `[A, B, C]` where A rejects — flipping the
flag changes nothing and every index has its outcome. -/
theorem c3_parallel_no_short_circuit_witness :
    executeCore runNotA { wfPar with continue_on_error := true } []
        = executeCore runNotA wfPar [] ∧
    (executeCore runNotA wfPar []).outcomes.length = wfPar.commands.length ∧
    ∀ i c, wfPar.commands.get? i = some c →
      (executeCore runNotA wfPar []).outcomes.get? i =
        some ⟨i, replaceVariables c (mergeVars wfPar.vars []),
          runNotA (replaceVariables c (mergeVars wfPar.vars []))⟩ :=
  c3_parallel_no_short_circuit runNotA wfPar [] true rfl

/-- C5, counterexample: executing a stored workflow with zero commands
completes as a successful run (`success = true`, the clean-success
message, an empty trace), even under a runner that would reject
everything — there is no defensive definition error and the call does
not fail. -/
theorem c5_counterexample :
    (executeCore runNone wfEmpty []).success = true ∧
    (executeCore runNone wfEmpty []).message = "Workflow completed successfully" := by
  decide

/-- C5, amended: invoking the Executor on a workflow whose command list
is empty completes normally in either mode: it dispatches nothing and
returns the clean success report (the source has no run-time emptiness
check; the defensive definition error the claim describes does not
exist). -/
theorem c5_empty_workflow_completes (runner : String → Bool) (w : StoredWorkflow)
    (vars : List (String × String)) (h : w.commands = []) :
    executeCore runner w vars =
      { success := true, message := "Workflow completed successfully",
        outcomes := [], haltedEarly := false } := by
  unfold executeCore
  rw [h]
  cases hp : w.parallel <;> simp [execPar, execSeqAux, traceOutcomes]

/-- C5 amended, witness: the zero-command workflow under the
all-rejecting runner still reports clean success. -/
theorem c5_empty_workflow_completes_witness :
    executeCore runNone wfEmpty [] =
      { success := true, message := "Workflow completed successfully",
        outcomes := [], haltedEarly := false } :=
  c5_empty_workflow_completes runNone wfEmpty [] rfl

/-- C4, counterexample: saving the workflow `w` with the empty command
array succeeds — the truthiness guard `!name || !commands` passes for an
empty array, `Database.saveWorkflow` runs its command-insert loop zero
times and commits — and the zero-command workflow is persisted.  The
claim's rejection does not exist. -/
theorem c4_counterexample :
    (workflowSave "w" (some []) {} []).1.success = true ∧
    ((workflowSave "w" (some []) {} []).2.find? (fun x => x.name == "w")).map
        (fun x => x.commands) = some [] := by
  decide

/-- C4, amended: the save path rejects only a missing/empty name or a
missing (`null`/`undefined`) commands argument; an empty command *list*
is accepted — the save reports success (`saved with 0 commands`) and a
workflow row with zero commands is persisted. -/
theorem c4_save_accepts_empty (name : String) (options : SaveOptions)
    (db : List StoredWorkflow) (h : name ≠ "") :
    (workflowSave name (some []) options db).1 =
      { success := true,
        message := "Workflow " ++ sq ++ name ++ sq ++ " saved with 0 commands" } ∧
    ((workflowSave name (some []) options db).2.find? (fun x => x.name == name)).map
        (fun x => x.commands) = some [] := by
  have hcond : ¬(name = "" ∨ (some [] : Option (List String)) = none) := by
    rintro (h1 | h2)
    · exact h h1
    · cases h2
  unfold workflowSave
  rw [if_neg hcond]
  refine ⟨?_, ?_⟩
  · show SaveResult.mk true ("Workflow " ++ sq ++ name ++ sq ++ " saved with "
        ++ toString (0 : Nat) ++ " commands") =
      SaveResult.mk true ("Workflow " ++ sq ++ name ++ sq ++ " saved with 0 commands")
    have hfold : ∀ (x : String),
        x ++ " saved with " ++ "0" ++ " commands" = x ++ " saved with 0 commands" := by
      intro x
      rw [String.append_assoc, String.append_assoc]
      rfl
    rw [show (toString (0 : Nat)) = "0" from rfl]
    rw [hfold ("Workflow " ++ sq ++ name ++ sq)]
  show ((dbSaveWorkflow name [] options db).find? (fun x => x.name == name)).map
    (fun x => x.commands) = some []
  unfold dbSaveWorkflow
  rw [List.find?_cons_of_pos _ (by simp)]
  rfl

/-- C4 amended, witness: saving `w` with `[]` into the empty store. -/
theorem c4_save_accepts_empty_witness :
    (workflowSave "w" (some []) {} []).1 =
      { success := true,
        message := "Workflow " ++ sq ++ "w" ++ sq ++ " saved with 0 commands" } ∧
    ((workflowSave "w" (some []) {} []).2.find? (fun x => x.name == "w")).map
        (fun x => x.commands) = some [] :=
  c4_save_accepts_empty "w" {} [] (by decide)

/-- Store holding the single workflow `w` (one command, never run). -/
def db6 : List StoredWorkflow :=
  [{ name := "w", description := "", parallel := false, continue_on_error := false,
     vars := [], commands := ["A"], execution_count := 0, last_executed := none }]

/-- Runner oracle under which every command fulfils. -/
def runAll : String → Bool := fun _ => true

/-- C6, counterexample: running the stored workflow `w` mutates shared
workflow storage — `execution_count` goes from 0 to 1 and
`last_executed` is set — and the entire mutation is already produced by
the `Database.getWorkflow` fetch at the start of the run, before any
command is dispatched and before the Executor returns; no caller
write-back happens after the report (the post-run store equals the
post-fetch store).  This contradicts the claim that storage is mutated
only after the Executor returns, by the caller. -/
theorem c6_counterexample :
    (executeWorkflow runAll db6 7 "w" []).2 ≠ db6 ∧
    (executeWorkflow runAll db6 7 "w" []).2 = (dbGetWorkflow db6 "w" 7).2 ∧
    ((dbGetWorkflow db6 "w" 7).2.find? (fun x => x.name == "w")).map
        (fun x => (x.execution_count, x.last_executed)) = some (1, some 7) := by
  decide

/-- C6, amended: the Executor's command loop itself performs no storage
write (it is a pure function of the fetched workflow), but the
statistics are not written by a caller after the run either: for every
run, the store after `execute` returns is exactly the store after the
initial `Database.getWorkflow` fetch, whose `UPDATE` increments
`execution_count` and sets `last_executed` at fetch time — i.e. at the
start of the run, before the report exists. -/
theorem c6_stats_written_at_fetch (runner : String → Bool)
    (db : List StoredWorkflow) (now : Nat) (name : String)
    (vars : List (String × String)) :
    (executeWorkflow runner db now name vars).2 = (dbGetWorkflow db name now).2 := by
  cases hdb : dbGetWorkflow db name now with
  | mk o db1 =>
    unfold executeWorkflow
    rw [hdb]
    cases o <;> rfl

/-- C10: for a duration string of one or more digits followed by `s`,
`m`, or `h`, `parseDuration` returns the digit group's decimal value
times 1000, 60000, or 3600000 respectively; every string not of that
anchored shape — the empty string included — silently yields the default
3600000 ms, so cleanup is always scheduled with a millisecond value. -/
theorem c10_parse_duration (ds : List Char) (s : String)
    (hne : ds ≠ []) (hdig : ∀ c ∈ ds, c.isDigit = true)
    (hno : ¬ MatchesDuration s) :
    parseDuration ⟨ds ++ ['s']⟩ = digitsToNat ds * 1000 ∧
    parseDuration ⟨ds ++ ['m']⟩ = digitsToNat ds * 60000 ∧
    parseDuration ⟨ds ++ ['h']⟩ = digitsToNat ds * 3600000 ∧
    parseDuration s = 3600000 := by
  have hmatch : ∀ u : Char, (u = 'h' ∨ u = 'm' ∨ u = 's') →
      matchDuration (ds ++ [u]) = some (digitsToNat ds, u) := by
    intro u hu
    unfold matchDuration
    rw [List.getLast?_concat, List.dropLast_concat]
    dsimp only
    rw [if_pos hu, if_pos ⟨hne, List.all_eq_true.mpr hdig⟩]
    rfl
  have hnone : matchDuration s.data = none := by
    cases hm : matchDuration s.data with
    | none => rfl
    | some vu =>
      exfalso
      apply hno
      unfold matchDuration at hm
      cases hl : s.data.getLast? with
      | none => rw [hl] at hm; cases hm
      | some u =>
        rw [hl] at hm
        dsimp only at hm
        by_cases hu : u = 'h' ∨ u = 'm' ∨ u = 's'
        · rw [if_pos hu] at hm
          by_cases hd : s.data.dropLast ≠ [] ∧ (s.data.dropLast.all fun c => c.isDigit) = true
          · have hsne : s.data ≠ [] := by
              intro hnil
              rw [hnil] at hl
              cases hl
            have hlast : s.data.getLast hsne = u := by
              have := List.getLast?_eq_getLast s.data hsne
              rw [hl] at this
              exact (Option.some.injEq _ _).mp this.symm
            refine ⟨s.data.dropLast, u, ?_, hd.1, ?_, hu⟩
            · rw [← hlast]
              exact (List.dropLast_append_getLast hsne).symm
            · exact fun c hc => List.all_eq_true.mp hd.2 c hc
          · rw [if_neg hd] at hm
            cases hm
        · rw [if_neg hu] at hm
          cases hm
  refine ⟨?_, ?_, ?_, ?_⟩
  · unfold parseDuration
    rw [show (String.mk (ds ++ ['s'])).data = ds ++ ['s'] from rfl,
      hmatch 's' (Or.inr (Or.inr rfl))]
    rfl
  · unfold parseDuration
    rw [show (String.mk (ds ++ ['m'])).data = ds ++ ['m'] from rfl,
      hmatch 'm' (Or.inr (Or.inl rfl))]
    rfl
  · unfold parseDuration
    rw [show (String.mk (ds ++ ['h'])).data = ds ++ ['h'] from rfl,
      hmatch 'h' (Or.inl rfl)]
    rfl
  · unfold parseDuration
    rw [hnone]

/-- C10, witness: `42s`, `42m`, `42h` parse to the three products, and
the empty string falls back to one hour. -/
theorem c10_parse_duration_witness :
    parseDuration "42s" = 42000 ∧ parseDuration "42m" = 2520000 ∧
    parseDuration "42h" = 151200000 ∧ parseDuration "" = 3600000 := by
  have h := c10_parse_duration ['4', '2'] "" (by decide) (by decide)
    (by
      rintro ⟨ds, u, hh, -, -, -⟩
      exact absurd hh.symm (by simp))
  exact ⟨h.1.trans (by decide), h.2.1.trans (by decide),
    h.2.2.1.trans (by decide), h.2.2.2⟩

end Deus
